import Mathlib

/-
Shallow embedding of the Go package `slice` (file `slice.go`), which provides
JavaScript-like methods on the generic type `Slice[T any] []T`.

Modelling conventions:
* `Slice[T]` is modelled as `List T`.
* A mutating method (one that assigns `*s = ...`) is a function from the
  receiver to the new receiver value; the Go return value of those methods is
  the receiver pointer itself, so the returned slice and the new receiver
  state coincide.
* A non-mutating method is a function returning a pair
  `(receiver after the call, result)`; its Go body never assigns `*s`, which
  the embedding reflects by returning the receiver unchanged.
* Go's zero value `var e T` is modelled by `default` from `Inhabited T`.
* A Go slice expression `(*s)[end:]` panics when `end < 0`; `Splice` and
  `ToSpliced` can reach that expression with `end = clampedStart + deleteCount
  < 0` when `deleteCount` is negative, so they return an `Option`, with `none`
  standing for the run-time panic.
* `sort.SliceStable(x, cmp)` sorts ascending by `cmp` and is stable.  For a
  comparator that is a strict weak order (the documented contract of
  `sort.SliceStable` and of this package's `less` parameter) its result is the
  unique stable sort, which insertion sort computes; it is modelled as
  `List.insertionSort` under the complement relation `leBy cmp`, with the
  arguments of `less` filled in exactly as in each Go call site.
-/

namespace SliceGo

/-- The relation `a precedes-or-ties b` induced by a boolean strict comparator:
`leBy less a b` holds when `less b a = false`.  Sorting ascending by `less`
means sorting by this relation. -/
def leBy {T : Type} (less : T → T → Bool) (a b : T) : Prop :=
  less b a = false

instance {T : Type} (less : T → T → Bool) : DecidableRel (leBy less) :=
  fun a b => instDecidableEqBool (less b a) false

/-- Semantics of Go's `sort.SliceStable` applied with a value comparator
`less`: the stable sort of the list, ascending by `less`, realised by
insertion sort under `leBy less`. -/
def stableSortBy {T : Type} (less : T → T → Bool) (l : List T) : List T :=
  List.insertionSort (leBy less) l

/-- Two elements tie under `less`: neither is less than the other. -/
def eqvBy {T : Type} (less : T → T → Bool) (a b : T) : Bool :=
  !less a b && !less b a

/-- Go `At`: `return (*s)[index]`.  A direct indexed access; Go panics when
`index` is negative or not below the length, modelled by `none`. -/
def At {T : Type} (s : List T) (index : Int) : Option T :=
  if 0 ≤ index then s.get? index.toNat else none

/-- Go `Concat`: builds a fresh slice from the receiver followed by each
argument slice, never assigning `*s`. -/
def Concat {T : Type} (s : List T) (elements : List (List T)) : List T × List T :=
  (s, s ++ elements.flatten)

/-- Go `Pop`: `var e T; if l > 0 { e = (*s)[l-1]; *s = (*s)[:l-1] }; return e`. -/
def Pop {T : Type} [Inhabited T] (s : List T) : List T × T :=
  if h : 0 < s.length then (s.take (s.length - 1), s.get ⟨s.length - 1, by omega⟩)
  else (s, default)

/-- Go `Shift`: `var e T; if l > 0 { e = (*s)[0]; *s = (*s)[1:] }; return e`. -/
def Shift {T : Type} [Inhabited T] (s : List T) : List T × T :=
  if h : 0 < s.length then (s.drop 1, s.get ⟨0, h⟩)
  else (s, default)

/-- Go `Splice`: clamps `start` to `[0, len]` (first from above, then from
below), computes `end = start + deleteCount` clamped from above to `len`, and
rebuilds the slice as `(*s)[:start] ++ elements ++ (*s)[end:]`, assigning the
result to `*s` and returning the receiver.  When `end < 0` the slice
expression `(*s)[end:]` panics (`none`). -/
def Splice {T : Type} (s : List T) (start deleteCount : Int) (elements : List T) :
    Option (List T) :=
  let l : Int := (s.length : Int)
  let s1 : Int := if start > l then l else start
  let s2 : Int := if s1 < 0 then 0 else s1
  let e1 : Int := s2 + deleteCount
  let e2 : Int := if e1 > l then l else e1
  if e2 < 0 then none
  else some (s.take s2.toNat ++ elements ++ s.drop e2.toNat)

/-- Go `Slice` (remove at index): `return s.Splice(index, 1)`. -/
def Slice {T : Type} (s : List T) (index : Int) : Option (List T) :=
  Splice s index 1 []

/-- Go `ToSpliced`: the same clamping and rebuild as `Splice`, but the result
is returned as a fresh slice and `*s` is never assigned.  The pair is
`(receiver after the call, fresh result)`; `none` is the panic on `end < 0`. -/
def ToSpliced {T : Type} (s : List T) (start deleteCount : Int) (elements : List T) :
    Option (List T × List T) :=
  let l : Int := (s.length : Int)
  let s1 : Int := if start > l then l else start
  let s2 : Int := if s1 < 0 then 0 else s1
  let e1 : Int := s2 + deleteCount
  let e2 : Int := if e1 > l then l else e1
  if e2 < 0 then none
  else some (s, s.take s2.toNat ++ elements ++ s.drop e2.toNat)

/-- Go `ToSliced`: `result := append(Slice[T]{}, *s.ToSpliced(index, 1)...)`,
a copy of the result of `ToSpliced(index, 1)`; copying is the identity on
immutable lists. -/
def ToSliced {T : Type} (s : List T) (index : Int) : Option (List T × List T) :=
  ToSpliced s index 1 []

/-- Go `Sort`: `sort.SliceStable(*s, func(i, j) { return less((*s)[i], (*s)[j]) })`,
assigning in place; the new receiver is the stable sort ascending by `less`.
(`Sort` is a reserved word in Lean, hence the primed name.) -/
def Sort' {T : Type} (s : List T) (less : T → T → Bool) : List T :=
  stableSortBy less s

/-- Go `ToSorted`: copies the receiver, stably sorts the copy with the same
comparator as `Sort`, and returns it without assigning `*s`. -/
def ToSorted {T : Type} (s : List T) (less : T → T → Bool) : List T × List T :=
  (s, stableSortBy less s)

/-- Go `Reverse`: `sort.SliceStable(*s, func(i, j) { return less((*s)[j], (*s)[i]) })`
— the same stable sort with the two arguments of `less` swapped. -/
def Reverse {T : Type} (s : List T) (less : T → T → Bool) : List T :=
  stableSortBy (fun a b => less b a) s

/-- Go `ToReversed`: copies the receiver, stably sorts the copy with the
swapped-argument comparator, and returns it without assigning `*s`. -/
def ToReversed {T : Type} (s : List T) (less : T → T → Bool) : List T × List T :=
  (s, stableSortBy (fun a b => less b a) s)

/-- Go `Filter`: appends, in order, each element for which `match` returns
true to a fresh result slice; the receiver is passed by value. -/
def Filter {T : Type} (s : List T) (m : T → Bool) : List T × List T :=
  (s, s.filter m)

/-- Go `Map`: `result[i] = change(s[i])` into a fresh slice of the same
length; the receiver is passed by value. -/
def Map {T : Type} (s : List T) (change : T → T) : List T × List T :=
  (s, s.map change)

/-- Go `Find`: scans forward, returning `(element, true)` at the first
element matching `match`, and `(zero value, false)` when none matches. -/
def Find {T : Type} [Inhabited T] (m : T → Bool) : List T → T × Bool
  | [] => (default, false)
  | x :: xs => if m x then (x, true) else Find m xs

/-- Go `FindLast`: scans from the last index down to 0, returning
`(element, true)` at the first match found (the last match overall) and
`(zero value, false)` when none matches.  The recursion gives the match
found in the tail (the higher indices) priority over the head. -/
def FindLast {T : Type} [Inhabited T] (m : T → Bool) : List T → T × Bool
  | [] => (default, false)
  | x :: xs =>
    let r := FindLast m xs
    if r.2 then r else if m x then (x, true) else (default, false)

/-- Modelled from the spec: the clamping formula of §4 — `start` clamped to
`[0, n]`, removal end boundary `start + deleteCount` clamped to at most `n`,
result `prefix ++ elements ++ suffix`. -/
def spliceClampSpec {T : Type} (s : List T) (start deleteCount : Int)
    (elements : List T) : List T :=
  let n : Int := (s.length : Int)
  let cs : Int := max 0 (min start n)
  let ce : Int := min (cs + deleteCount) n
  s.take cs.toNat ++ elements ++ s.drop ce.toNat

/-- A concrete comparator on pairs ordering by first component only, used to
exhibit that reverse differs from sort-then-physically-reverse. -/
def pairFstLess (a b : Nat × Nat) : Bool :=
  decide (a.1 < b.1)

/-- Characterization of `Splice`: the clamped start is `max 0 (min start n)`,
the drop boundary is `min (clampedStart + deleteCount) n`, and the call
panics exactly when `clampedStart + deleteCount < 0`. -/
theorem Splice_eq_clamped {T : Type} (s : List T) (start dc : Int) (elems : List T) :
    Splice s start dc elems =
      if max 0 (min start (s.length : Int)) + dc < 0 then none
      else
        some (s.take (max 0 (min start (s.length : Int))).toNat ++ elems ++
          s.drop (min (max 0 (min start (s.length : Int)) + dc) (s.length : Int)).toNat) := by
  have hl : (0 : Int) ≤ (s.length : Int) := Int.natCast_nonneg _
  simp only [Splice]
  split_ifs <;>
    first
      | rfl
      | (exfalso; omega)
      | (congr 4 <;> omega)

/-- The body of `ToSpliced` is the body of `Splice` with the receiver left
untouched and the result returned fresh. -/
theorem ToSpliced_eq_splice {T : Type} (s : List T) (start dc : Int) (elems : List T) :
    ToSpliced s start dc elems = (Splice s start dc elems).map (fun r => (s, r)) := by
  simp only [ToSpliced, Splice]
  split_ifs <;> rfl

/-- Whenever `ToSpliced` succeeds, the receiver component of its result is the
original receiver. -/
theorem ToSpliced_receiver_eq {T : Type} {s : List T} {start dc : Int} {elems : List T}
    {r : List T × List T} (hr : r ∈ ToSpliced s start dc elems) : r.1 = s := by
  rw [ToSpliced_eq_splice, Option.mem_def, Option.map_eq_some'] at hr
  obtain ⟨a, -, ha⟩ := hr
  rw [← ha]

/-- C2: for every sequence, integer start and deleteCount >= 0, `Splice` and
`ToSpliced` succeed and remove exactly the elements in
`[clamp(start), min(clamp(start) + deleteCount, n))`, inserting the supplied
elements at the clamped start; on a 3-element sequence, `splice(-5, 2)`
behaves as `splice(0, 2)`, `splice(10, 1)` removes nothing, and
`splice(1, 100, x, y)` removes everything from index 1 on and inserts x, y. -/
theorem splice_nonneg_deleteCount_clamps :
    (∀ (T : Type) (s : List T) (start dc : Int) (elems : List T), 0 ≤ dc →
        Splice s start dc elems = some (spliceClampSpec s start dc elems) ∧
        ToSpliced s start dc elems = some (s, spliceClampSpec s start dc elems)) ∧
    Splice ([1, 2, 3] : List Int) (-5) 2 [] = Splice [1, 2, 3] 0 2 [] ∧
    Splice ([1, 2, 3] : List Int) 10 1 [] = some [1, 2, 3] ∧
    Splice ([1, 2, 3] : List Int) 1 100 [10, 20] = some [1, 10, 20] := by
  refine ⟨?_, by decide, by decide, by decide⟩
  intro T s start dc elems hdc
  have h := Splice_eq_clamped s start dc elems
  have hcs : (0 : Int) ≤ max 0 (min start (s.length : Int)) := le_max_left _ _
  rw [if_neg (by omega)] at h
  refine ⟨?_, ?_⟩
  · rw [h]; rfl
  · rw [ToSpliced_eq_splice, h]; rfl

theorem c2_witness :
    (0 : Int) ≤ 1 ∧
      Splice ([1, 2, 3] : List Int) 0 1 [9] = some (spliceClampSpec [1, 2, 3] 0 1 [9]) :=
  ⟨by decide, (splice_nonneg_deleteCount_clamps.1 Int [1, 2, 3] 0 1 [9] (by decide)).1⟩

/-- C1 counterexample: with a negative deleteCount the operation is not the
claimed pure insertion and it can fail: `splice(0, -1)` on `[1]` reaches the
slice expression `(*s)[-1:]`, a run-time panic (`none`), and `splice(2, -1)`
on `[1, 2, 3]` duplicates the element at index 1 instead of only inserting
the (empty) supplied elements. -/
theorem splice_negative_deleteCount_cex :
    Splice ([1] : List Int) 0 (-1) [] = none ∧
    ToSpliced ([1] : List Int) 0 (-1) [] = none ∧
    Splice ([1, 2, 3] : List Int) 2 (-1) [] = some [1, 2, 2, 3] := by
  refine ⟨by decide, by decide, by decide⟩

/-- C1 amended: for every sequence, integer start and negative deleteCount,
with cs = clamp(start to [0, n]): when cs + deleteCount < 0 both `Splice` and
`ToSpliced` fail (slice-bounds panic); otherwise they succeed, remove nothing
(the receiver is a subsequence of the result), and produce
`s[:cs] ++ elements ++ s[cs+deleteCount:]`, which inserts the supplied
elements at cs but also duplicates the receiver elements of
`[cs+deleteCount, cs)`. -/
theorem splice_negative_deleteCount_amended :
    ∀ (T : Type) (s : List T) (start dc : Int) (elems : List T), dc < 0 →
      (max 0 (min start (s.length : Int)) + dc < 0 →
        Splice s start dc elems = none ∧ ToSpliced s start dc elems = none) ∧
      (0 ≤ max 0 (min start (s.length : Int)) + dc →
        Splice s start dc elems =
          some (s.take (max 0 (min start (s.length : Int))).toNat ++ elems ++
            s.drop (max 0 (min start (s.length : Int)) + dc).toNat) ∧
        ToSpliced s start dc elems =
          some (s, s.take (max 0 (min start (s.length : Int))).toNat ++ elems ++
            s.drop (max 0 (min start (s.length : Int)) + dc).toNat) ∧
        ∀ r ∈ Splice s start dc elems, s.Sublist r) := by
  intro T s start dc elems hdc
  have hl : (0 : Int) ≤ (s.length : Int) := Int.natCast_nonneg _
  have h := Splice_eq_clamped s start dc elems
  have hcs0 : (0 : Int) ≤ max 0 (min start (s.length : Int)) := le_max_left _ _
  have hcsn : max 0 (min start (s.length : Int)) ≤ (s.length : Int) := by omega
  constructor
  · intro hneg
    rw [if_pos hneg] at h
    exact ⟨h, by rw [ToSpliced_eq_splice, h]; rfl⟩
  · intro hpos
    rw [if_neg (by omega)] at h
    have hmin : min (max 0 (min start (s.length : Int)) + dc) (s.length : Int)
        = max 0 (min start (s.length : Int)) + dc := by omega
    rw [hmin] at h
    refine ⟨h, by rw [ToSpliced_eq_splice, h]; rfl, ?_⟩
    intro r hr
    rw [Option.mem_def, h, Option.some.injEq] at hr
    subst hr
    have h1 : (s.drop (max 0 (min start (s.length : Int))).toNat).Sublist
        (s.drop (max 0 (min start (s.length : Int)) + dc).toNat) := by
      have hd := List.drop_drop ((max 0 (min start (s.length : Int))).toNat -
          (max 0 (min start (s.length : Int)) + dc).toNat)
          ((max 0 (min start (s.length : Int)) + dc).toNat) s
      rw [show (max 0 (min start (s.length : Int)) + dc).toNat +
          ((max 0 (min start (s.length : Int))).toNat -
            (max 0 (min start (s.length : Int)) + dc).toNat) =
          (max 0 (min start (s.length : Int))).toNat by omega] at hd
      rw [← hd]
      exact List.drop_sublist _ _
    have h2 : (s.drop (max 0 (min start (s.length : Int))).toNat).Sublist
        (elems ++ s.drop (max 0 (min start (s.length : Int)) + dc).toNat) :=
      h1.trans (List.sublist_append_right _ _)
    have h3 := h2.append_left (s.take (max 0 (min start (s.length : Int))).toNat)
    rw [List.take_append_drop] at h3
    rw [List.append_assoc]
    exact h3

theorem c1_amended_witness :
    Splice ([1] : List Int) 0 (-1) [] = none ∧ ToSpliced ([1] : List Int) 0 (-1) [] = none :=
  (splice_negative_deleteCount_amended Int [1] 0 (-1) [] (by decide)).1 (by decide)

/-- C4: `ToSpliced` produces exactly the sequence `Splice` would produce on a
copy of the receiver while leaving the receiver untouched, `ToSliced index`
delegates to `ToSpliced index 1`, and `Slice index` (removeAt) delegates to
`Splice index 1`. -/
theorem copy_variants_agree :
    (∀ (T : Type) (s : List T) (start dc : Int) (elems : List T),
        (ToSpliced s start dc elems).map Prod.snd = Splice s start dc elems ∧
        ∀ r ∈ ToSpliced s start dc elems, r.1 = s) ∧
    (∀ (T : Type) (s : List T) (index : Int),
        ToSliced s index = ToSpliced s index 1 [] ∧ Slice s index = Splice s index 1 []) := by
  constructor
  · intro T s start dc elems
    refine ⟨?_, fun r hr => ToSpliced_receiver_eq hr⟩
    rw [ToSpliced_eq_splice]
    cases Splice s start dc elems <;> rfl
  · exact fun T s index => ⟨rfl, rfl⟩

theorem c4_witness :
    (([1, 2], [5, 2]) : List Int × List Int).1 = [1, 2] :=
  (copy_variants_agree.1 Int [1, 2] 0 1 [5]).2 ([1, 2], [5, 2]) (by decide)

/-- C5: the non-mutating operations `ToSpliced`, `ToSorted`, `ToReversed`,
`Filter`, `Map` and `Concat` leave the receiver unchanged: the receiver
component of each result is the original sequence. -/
theorem non_mutating_ops_frame :
    ∀ (T : Type) (s : List T) (start dc : Int) (elems : List T)
      (less : T → T → Bool) (p : T → Bool) (f : T → T) (others : List (List T)),
      (∀ r ∈ ToSpliced s start dc elems, r.1 = s) ∧
      (ToSorted s less).1 = s ∧ (ToReversed s less).1 = s ∧
      (Filter s p).1 = s ∧ (Map s f).1 = s ∧ (Concat s others).1 = s :=
  fun _T _s _start _dc _elems _less _p _f _others =>
    ⟨fun _r hr => ToSpliced_receiver_eq hr, rfl, rfl, rfl, rfl, rfl⟩

theorem c5_witness :
    (([3], [7, 3]) : List Int × List Int).1 = [3] :=
  (non_mutating_ops_frame Int [3] 0 0 [7] (fun a b => decide (a < b)) (fun _ => true) id
    [[9]]).1 ([3], [7, 3]) (by decide)

/-- Filtering the ties of any fixed element `x` commutes with inserting `a`
into a list, provided the complement relation of `less` is transitive: `a`
lands before every tie of `x` that it passes over. -/
theorem filter_eqv_orderedInsert {T : Type} (less : T → T → Bool)
    (hT : ∀ a b c, less b a = false → less c b = false → less c a = false)
    (x a : T) (L : List T) :
    (List.orderedInsert (leBy less) a L).filter (eqvBy less x) =
      if eqvBy less x a then a :: L.filter (eqvBy less x)
      else L.filter (eqvBy less x) := by
  induction L with
  | nil =>
    simp only [List.orderedInsert, List.filter]
    cases h : eqvBy less x a <;> simp [h]
  | cons b L ih =>
    by_cases hab : leBy less a b
    · rw [List.orderedInsert, if_pos hab, List.filter_cons]
    · rw [List.orderedInsert, if_neg hab, List.filter_cons, ih, List.filter_cons]
      have hba : less b a = true := by
        unfold leBy at hab
        exact Bool.not_eq_false _ |>.mp hab
      cases hxa : eqvBy less x a with
      | false => simp [hxa]
      | true =>
        have hxb : eqvBy less x b = false := by
          cases hxb : eqvBy less x b with
          | false => rfl
          | true =>
            exfalso
            have h1 : less x a = false ∧ less a x = false := by
              simpa [eqvBy, Bool.and_eq_true, Bool.not_eq_true'] using hxa
            have h2 : less x b = false ∧ less b x = false := by
              simpa [eqvBy, Bool.and_eq_true, Bool.not_eq_true'] using hxb
            have : less b a = false := hT a x b h1.1 h2.2
            rw [this] at hba
            exact Bool.false_ne_true hba
        simp [hxa, hxb]

/-- The stable sort preserves, for any fixed element `x`, the subsequence of
elements that tie with `x`. -/
theorem filter_eqv_stableSortBy {T : Type} (less : T → T → Bool)
    (hT : ∀ a b c, less b a = false → less c b = false → less c a = false)
    (x : T) (l : List T) :
    (stableSortBy less l).filter (eqvBy less x) = l.filter (eqvBy less x) := by
  induction l with
  | nil => rfl
  | cons a l ih =>
    show (List.orderedInsert (leBy less) a (List.insertionSort (leBy less) l)).filter
        (eqvBy less x) = (a :: l).filter (eqvBy less x)
    rw [filter_eqv_orderedInsert less hT x a]
    show (if eqvBy less x a then a :: (stableSortBy less l).filter (eqvBy less x)
        else (stableSortBy less l).filter (eqvBy less x)) = _
    rw [ih, List.filter_cons]

/-- With an asymmetric comparator whose complement is transitive (a strict
weak order), the stable sort is ascending: successive elements never satisfy
`less` backwards. -/
theorem sorted_stableSortBy {T : Type} (less : T → T → Bool)
    (hA : ∀ a b, less a b = true → less b a = false)
    (hT : ∀ a b c, less b a = false → less c b = false → less c a = false)
    (l : List T) : List.Sorted (leBy less) (stableSortBy less l) := by
  haveI : IsTotal T (leBy less) := ⟨fun a b => by
    unfold leBy
    cases h : less b a with
    | false => exact Or.inl rfl
    | true => exact Or.inr (hA b a h)⟩
  haveI : IsTrans T (leBy less) := ⟨fun a b c h1 h2 => hT a b c h1 h2⟩
  exact List.sorted_insertionSort _ _

/-- Tying under the swapped comparator is the same as tying under the
original one. -/
theorem eqvBy_swap {T : Type} (less : T → T → Bool) (x : T) :
    eqvBy (fun a b => less b a) x = eqvBy less x := by
  funext y
  simp [eqvBy, Bool.and_comm]

/-- C7: for every sequence and strict-weak-order comparator (asymmetric with
transitive complement, the documented contract of `less`), `Sort'` produces a
stably ascending reordering: every adjacent pair (prev, next) satisfies
`!less(next, prev)`, ties keep their relative input order, and `ToSorted`
returns the same reordering. -/
theorem sort_stable_ascending :
    ∀ (T : Type) (s : List T) (less : T → T → Bool),
      (∀ a b, less a b = true → less b a = false) →
      (∀ a b c, less b a = false → less c b = false → less c a = false) →
      List.Chain' (fun prev next => less next prev = false) (Sort' s less) ∧
      (∀ x, (Sort' s less).filter (eqvBy less x) = s.filter (eqvBy less x)) ∧
      (ToSorted s less).2 = Sort' s less := by
  intro T s less hA hT
  refine ⟨?_, fun x => filter_eqv_stableSortBy less hT x s, rfl⟩
  exact (sorted_stableSortBy less hA hT s).chain'

theorem c7_witness :
    List.Chain' (fun prev next : Nat => decide (next < prev) = false)
      (Sort' [3, 1, 2] (fun a b : Nat => decide (a < b))) :=
  (sort_stable_ascending Nat [3, 1, 2] (fun a b => decide (a < b))
    (by intro a b h; simp only [decide_eq_true_eq, decide_eq_false_iff_not] at *; omega)
    (by intro a b c h1 h2; simp only [decide_eq_false_iff_not] at *; omega)).1

/-- C3: `Reverse` (and `ToReversed`) is the stable sort under the
swapped-argument comparator; elements tying under `less` keep their original
relative order (complement-transitivity of `less` suffices); and this is
distinct from stably sorting ascending and then physically reversing, as the
two-element example with a tie shows. -/
theorem reverse_is_swapped_stable_sort :
    (∀ (T : Type) (s : List T) (less : T → T → Bool),
        Reverse s less = stableSortBy (fun a b => less b a) s ∧
        (ToReversed s less).2 = Reverse s less) ∧
    (∀ (T : Type) (s : List T) (less : T → T → Bool),
        (∀ a b c, less b a = false → less c b = false → less c a = false) →
        ∀ x, (Reverse s less).filter (eqvBy less x) = s.filter (eqvBy less x)) ∧
    Reverse [(1, 1), (1, 2)] pairFstLess ≠ (Sort' [(1, 1), (1, 2)] pairFstLess).reverse := by
  refine ⟨fun T s less => ⟨rfl, rfl⟩, ?_, by decide⟩
  intro T s less hT x
  have hT' : ∀ a b c, less a b = false → less b c = false → less a c = false :=
    fun a b c h1 h2 => hT c b a h2 h1
  have h := filter_eqv_stableSortBy (fun a b => less b a) hT' x s
  rw [eqvBy_swap] at h
  exact h

theorem c3_witness :
    (Reverse [2, 1, 1] (fun a b : Nat => decide (a < b))).filter
        (eqvBy (fun a b : Nat => decide (a < b)) 1) =
      ([2, 1, 1] : List Nat).filter (eqvBy (fun a b : Nat => decide (a < b)) 1) :=
  reverse_is_swapped_stable_sort.2.1 Nat [2, 1, 1] (fun a b => decide (a < b))
    (by intro a b c h1 h2; simp only [decide_eq_false_iff_not] at *; omega) 1

/-- C10: `Sort'`, `Reverse`, `ToSorted` and `ToReversed` each produce a
permutation of the input, for every comparator: no element is dropped,
duplicated or altered. -/
theorem ordering_ops_preserve_elements :
    ∀ (T : Type) (s : List T) (less : T → T → Bool),
      (Sort' s less).Perm s ∧ (Reverse s less).Perm s ∧
      ((ToSorted s less).2).Perm s ∧ ((ToReversed s less).2).Perm s :=
  fun _T s _less =>
    ⟨List.perm_insertionSort _ s, List.perm_insertionSort _ s,
      List.perm_insertionSort _ s, List.perm_insertionSort _ s⟩

/-- On a non-empty list, `Pop` splits off the last element. -/
theorem Pop_eq_dropLast_getLast {T : Type} [Inhabited T] (s : List T) (h : s ≠ []) :
    Pop s = (s.dropLast, s.getLast h) := by
  have hl : 0 < s.length := List.length_pos.mpr h
  simp only [Pop, dif_pos hl]
  rw [List.dropLast_eq_take, List.getLast_eq_getElem]
  rfl

/-- C6: on a non-empty sequence `Pop` removes and returns the last element
and `Shift` removes and returns the first element, shifting the rest one
position toward index 0, each shrinking the length by exactly 1; on the empty
sequence both return the zero value and leave the sequence empty. -/
theorem pop_shift_contract :
    ∀ (T : Type) [Inhabited T],
      (∀ (xs : List T) (x : T), Pop (xs ++ [x]) = (xs, x)) ∧
      (∀ (x : T) (xs : List T), Shift (x :: xs) = (xs, x)) ∧
      (∀ s : List T, s ≠ [] →
        (Pop s).1.length + 1 = s.length ∧ (Shift s).1.length + 1 = s.length) ∧
      Pop ([] : List T) = ([], default) ∧ Shift ([] : List T) = ([], default) := by
  intro T _
  have hshift : ∀ (x : T) (xs : List T), Shift (x :: xs) = (xs, x) := by
    intro x xs
    rw [Shift, dif_pos (by simp)]
    rfl
  refine ⟨?_, hshift, ?_, rfl, rfl⟩
  · intro xs x
    rw [Pop_eq_dropLast_getLast (xs ++ [x]) (by simp), List.dropLast_concat,
      List.getLast_concat]
  · intro s hs
    obtain ⟨x, xs, rfl⟩ : ∃ x xs, s = x :: xs := by
      cases s with
      | nil => exact absurd rfl hs
      | cons x xs => exact ⟨x, xs, rfl⟩
    constructor
    · rw [Pop_eq_dropLast_getLast _ hs]
      simp [List.length_dropLast]
    · rw [hshift]
      simp

/-- C8: for `0 <= index < length`, `At` returns the element at that index;
the out-of-range branch (`none`, the Go panic) is unreachable under the
precondition. -/
theorem at_in_range :
    ∀ (T : Type) (s : List T) (index : Int), 0 ≤ index →
      ∀ h1 : index.toNat < s.length, At s index = some (s.get ⟨index.toNat, h1⟩) := by
  intro T s index h0 h1
  rw [At, if_pos h0]
  exact List.get?_eq_get h1

theorem c8_witness :
    At ([10, 20, 30] : List Int) 1 =
      some (([10, 20, 30] : List Int).get ⟨(1 : Int).toNat, by decide⟩) :=
  at_in_range Int [10, 20, 30] 1 (by decide) (by decide)

theorem c6_witness :
    Pop ([1, 2, 3] : List Int) = ([1, 2], 3) ∧
      (Pop ([1, 2, 3] : List Int)).1.length + 1 = ([1, 2, 3] : List Int).length :=
  ⟨(pop_shift_contract Int).1 [1, 2] 3,
    ((pop_shift_contract Int).2.2.1 [1, 2, 3] (by decide)).1⟩

/-- When no element matches, `Find` returns the zero value and false. -/
theorem Find_of_no_match {T : Type} [Inhabited T] (m : T → Bool) (s : List T)
    (h : ∀ x ∈ s, m x = false) : Find m s = (default, false) := by
  induction s with
  | nil => rfl
  | cons a s ih =>
    rw [Find, h a (List.mem_cons_self a s)]
    simp only [Bool.false_eq_true, if_false]
    exact ih fun x hx => h x (List.mem_cons_of_mem a hx)

/-- When no element matches, `FindLast` returns the zero value and false. -/
theorem FindLast_of_no_match {T : Type} [Inhabited T] (m : T → Bool) (s : List T)
    (h : ∀ x ∈ s, m x = false) : FindLast m s = (default, false) := by
  induction s with
  | nil => rfl
  | cons a s ih =>
    have ht := ih fun x hx => h x (List.mem_cons_of_mem a hx)
    rw [FindLast]
    simp only [ht, h a (List.mem_cons_self a s)]
    rfl

/-- `Find` returns the match at the head of the unmatched-free decomposition. -/
theorem Find_first_match {T : Type} [Inhabited T] (m : T → Bool) :
    ∀ (a : List T) (x : T) (b : List T), m x = true → (∀ y ∈ a, m y = false) →
      Find m (a ++ x :: b) = (x, true)
  | [], x, b, hx, _ => by rw [List.nil_append, Find, hx]; rfl
  | y :: a, x, b, hx, ha => by
    rw [List.cons_append, Find, ha y (List.mem_cons_self y a)]
    simp only [Bool.false_eq_true, if_false]
    exact Find_first_match m a x b hx fun z hz => ha z (List.mem_cons_of_mem y hz)

/-- `FindLast` returns the match after which nothing matches. -/
theorem FindLast_last_match {T : Type} [Inhabited T] (m : T → Bool) :
    ∀ (a : List T) (x : T) (b : List T), m x = true → (∀ y ∈ b, m y = false) →
      FindLast m (a ++ x :: b) = (x, true)
  | [], x, b, hx, hb => by
    rw [List.nil_append, FindLast]
    simp only [FindLast_of_no_match m b hb, hx]
    rfl
  | y :: a, x, b, hx, hb => by
    rw [List.cons_append, FindLast]
    simp only [FindLast_last_match m a x b hx hb]
    rfl

/-- C9: `Find` returns `(first matching element, true)` when some element
matches and `(zero value, false)` when none does; `FindLast` likewise returns
`(last matching element, true)` or `(zero value, false)`, scanning from the
end. -/
theorem find_findLast_contract :
    ∀ (T : Type) [Inhabited T] (s : List T) (m : T → Bool),
      ((Find m s).2 = s.any m ∧ (FindLast m s).2 = s.any m) ∧
      ((∀ x ∈ s, m x = false) →
        Find m s = (default, false) ∧ FindLast m s = (default, false)) ∧
      (∀ (a b : List T) (x : T), s = a ++ x :: b → m x = true →
        (∀ y ∈ a, m y = false) → Find m s = (x, true)) ∧
      (∀ (a b : List T) (x : T), s = a ++ x :: b → m x = true →
        (∀ y ∈ b, m y = false) → FindLast m s = (x, true)) := by
  intro T _ s m
  refine ⟨⟨?_, ?_⟩, fun h => ⟨Find_of_no_match m s h, FindLast_of_no_match m s h⟩,
    fun a b x hs hx ha => hs ▸ Find_first_match m a x b hx ha,
    fun a b x hs hx hb => hs ▸ FindLast_last_match m a x b hx hb⟩
  · induction s with
    | nil => rfl
    | cons a s ih =>
      rw [Find, List.any_cons]
      cases h : m a <;> simp [h, ih]
  · induction s with
    | nil => rfl
    | cons a s ih =>
      rw [FindLast, List.any_cons]
      show (if (FindLast m s).2 then FindLast m s
        else if m a then (a, true) else (default, false)).2 = (m a || s.any m)
      rw [ih] -- replaces (FindLast m s).2 by s.any m? occurrence inside if cond and branch
      cases hs : s.any m <;> cases h : m a <;> simp [hs, h, ih]

theorem c9_witness :
    Find (fun v : Int => decide (v < 0)) [3, -2, 5, -7] = (-2, true) ∧
      FindLast (fun v : Int => decide (v < 0)) [3, -2, 5, -7] = (-7, true) :=
  ⟨(find_findLast_contract Int [3, -2, 5, -7] (fun v => decide (v < 0))).2.2.1
      [3] [5, -7] (-2) rfl (by decide) (by decide),
    (find_findLast_contract Int [3, -2, 5, -7] (fun v => decide (v < 0))).2.2.2
      [3, -2, 5] [] (-7) rfl (by decide) (by decide)⟩

end SliceGo
